import Mathlib

/-!
Verification of the host-group extraction tool (`sophos-host-group-export.py`).

The script operates on an `xml.etree.ElementTree` document.  We embed XML
elements as a value tree: tag, attribute list, optional text, children.
`deepcopy` of the Python code is the identity on this value representation.
`ET.indent` (called at the end of `process_tree`) only rewrites inter-element
whitespace (the `.text`/`.tail` strings of container elements); it does not
change tags, attributes, child order, or the text of leaf `Name`/reference
elements, so it is modelled as the identity as well.

Python string primitives used by the script (`str.strip`, `str.lower`,
`str.split`, `int(...)`, `str.isdigit`, comparison in `sorted`) are embedded
below as executable functions over `List Char` / `String`, restricted to the
ASCII behaviour relevant for this tool's data.
-/

/-! ### Python string primitives -/

/-- Characters stripped by Python `str.strip()` (ASCII whitespace). -/
def pyIsSpace (c : Char) : Bool :=
  c = ' ' || c = '\t' || c = '\n' || c = '\x0d' || c = '\x0b' || c = '\x0c'

/-- Python `str.strip()`. -/
def pyStrip (s : String) : String :=
  (((s.toList.dropWhile pyIsSpace).reverse.dropWhile pyIsSpace).reverse).asString

/-- ASCII lower-casing of one character, as in Python `str.lower()`. -/
def pyCharLower (c : Char) : Char :=
  if 65 ≤ c.toNat ∧ c.toNat ≤ 90 then Char.ofNat (c.toNat + 32) else c

/-- Python `str.lower()` (ASCII). -/
def pyLower (s : String) : String :=
  (s.toList.map pyCharLower).asString

/-- Code-point lexicographic order on character lists: Python's `<` on
strings. A strict prefix is smaller. -/
def lexLt : List Char → List Char → Bool
  | [], [] => false
  | [], _ :: _ => true
  | _ :: _, [] => false
  | a :: as, b :: bs =>
    if a.toNat < b.toNat then true
    else if b.toNat < a.toNat then false
    else lexLt as bs

/-- Python string `<`. -/
def pyStrLt (a b : String) : Bool := lexLt a.toList b.toList

/-- Python string `<=` (total order: `a <= b ↔ ¬ b < a`). -/
def pyStrLe (a b : String) : Bool := !(pyStrLt b a)

/-- `s.split(',')`: split on every comma, keeping empty chunks. -/
def splitCommas : List Char → List (List Char)
  | [] => [[]]
  | c :: rest =>
    if c = ',' then [] :: splitCommas rest
    else
      match splitCommas rest with
      | g :: gs => (c :: g) :: gs
      | [] => [[c]]

/-- Python `str.isdigit()` restricted to ASCII: non-empty and all `0`-`9`. -/
def pyIsDigit (s : String) : Bool :=
  !s.toList.isEmpty && s.toList.all (fun c => c.isDigit)

/-- Shape check for the digit part of a Python integer literal: digits with
single underscores allowed strictly between digits. The first character is
checked by the caller to be a digit. -/
def udShape : List Char → Bool
  | [] => true
  | [c] => c.isDigit
  | c :: d :: rest =>
    if c.isDigit then udShape (d :: rest)
    else c = '_' && d.isDigit && udShape (d :: rest)

/-- Python `int(s)` on a string: optional surrounding whitespace, optional
sign, then digits with optional single underscores between digits; `none`
models the `ValueError`. -/
def pyInt (s : String) : Option Int :=
  let cs := (pyStrip s).toList
  let sb : Int × List Char :=
    match cs with
    | '+' :: r => (1, r)
    | '-' :: r => (-1, r)
    | r => (1, r)
  match sb with
  | (sgn, body) =>
    match body with
    | [] => none
    | c :: rest =>
      if c.isDigit && udShape (c :: rest) then
        some (sgn * ((((c :: rest).filter (fun d => d.isDigit)).foldl
          (fun a d => 10 * a + ((d.toNat : Int) - 48)) 0)))
      else none

/-- Prefix test on character lists. -/
def startsWithCL : List Char → List Char → Bool
  | [], _ => true
  | _ :: _, [] => false
  | a :: as, b :: bs => a = b && startsWithCL as bs

/-- Python `needle in haystack` on strings: contiguous substring test. -/
def containsSub (needle : List Char) : List Char → Bool
  | [] => needle.isEmpty
  | c :: rest => startsWithCL needle (c :: rest) || containsSub needle rest

/-- `part.split('-', 1)` when a `-` is known to be present: the characters
before the first `-` and the characters after it. -/
def splitFirstDash : List Char → List Char × List Char
  | [] => ([], [])
  | c :: rest =>
    if c = '-' then ([], rest)
    else
      match splitFirstDash rest with
      | (a, b) => (c :: a, b)

/-- Insertion into a list sorted by `pyStrLe` (used to model Python
`sorted`). -/
def orderedInsertPy (a : String) : List String → List String
  | [] => [a]
  | b :: l => if pyStrLe a b then a :: b :: l else b :: orderedInsertPy a l

/-- Insertion sort by `pyStrLe`: extensionally, Python `sorted` on a list of
strings. -/
def pySorted : List String → List String
  | [] => []
  | a :: l => orderedInsertPy a (pySorted l)

/-! ### XML element model -/

inductive Element : Type where
  | mk : String → List (String × String) → Option String → List Element → Element

def Element.tag : Element → String
  | .mk t _ _ _ => t

def Element.attrib : Element → List (String × String)
  | .mk _ a _ _ => a

def Element.text : Element → Option String
  | .mk _ _ tx _ => tx

def Element.children : Element → List Element
  | .mk _ _ _ cs => cs

mutual
/-- Structural equality test on elements (decidability support). -/
def Element.beq : Element → Element → Bool
  | .mk t a tx cs, .mk t2 a2 tx2 cs2 =>
    t = t2 && a = a2 && tx = tx2 && Element.beqList cs cs2

/-- Structural equality test on element lists. -/
def Element.beqList : List Element → List Element → Bool
  | [], [] => true
  | c :: cs, d :: ds => Element.beq c d && Element.beqList cs ds
  | _, _ => false
end

mutual
theorem Element.beq_eq : ∀ a b : Element, Element.beq a b = true ↔ a = b
  | .mk t a tx cs, .mk t2 a2 tx2 cs2 => by
    simp [Element.beq, Element.beqList_eq cs cs2, and_assoc]

theorem Element.beqList_eq : ∀ as bs : List Element, Element.beqList as bs = true ↔ as = bs
  | [], [] => by simp [Element.beqList]
  | [], _ :: _ => by simp [Element.beqList]
  | _ :: _, [] => by simp [Element.beqList]
  | a :: as, b :: bs => by
    simp [Element.beqList, Element.beq_eq a b, Element.beqList_eq as bs]
end

instance : DecidableEq Element :=
  fun a b => decidable_of_iff (Element.beq a b = true) (Element.beq_eq a b)

mutual
/-- Pre-order (document-order) traversal of an element and all its
descendants; this is Python's `elem.iter()`. -/
def Element.preorder : Element → List Element
  | .mk t a tx cs => .mk t a tx cs :: Element.preorderList cs

/-- Concatenated pre-order traversals of a list of sibling elements. -/
def Element.preorderList : List Element → List Element
  | [] => []
  | c :: cs => Element.preorder c ++ Element.preorderList cs
end

/-- All proper descendants of an element in document order. -/
def Element.descendants (e : Element) : List Element :=
  Element.preorderList e.children

/-- `root.findall(".//tag")` (and `root.find(".//tag")` via its head): all
proper descendants with the given tag, in document order — the root element
itself is not considered. -/
def findallDesc (tag : String) (root : Element) : List Element :=
  root.descendants.filter (fun e => e.tag = tag)

/-- `root.iter(tag)`: the element itself and all descendants with the given
tag, in document order. -/
def iterTag (tag : String) (root : Element) : List Element :=
  root.preorder.filter (fun e => e.tag = tag)

/-- `elem.find(tag)` for a plain tag path: first direct child with that tag. -/
def Element.findChild (e : Element) (tag : String) : Option Element :=
  e.children.find? (fun c => c.tag = tag)

/-- `elem.findtext(tag, default)` for a plain tag path: text of the first
direct child with that tag (`""` when that child's text is `None`), or the
default when no such child exists. -/
def Element.findtextD (e : Element) (tag : String) (dflt : String) : String :=
  match e.findChild tag with
  | some c => c.text.getD ""
  | none => dflt

/-- `elem.findtext('Name', '').strip()`, the name under which groups and
hosts are identified throughout the script. -/
def nameOf (e : Element) : String :=
  pyStrip (e.findtextD "Name" "")

/-- The four element-name bindings of one schema variant (one entry of the
script's `TAG_SETS`). -/
structure Tags where
  group : String
  list : String
  ref : String
  host : String
deriving DecidableEq

def ipTags : Tags :=
  { group := "IPHostGroup", list := "IPHostList", ref := "IPHost", host := "IPHost" }

def fqdnTags : Tags :=
  { group := "FQDNHostGroup", list := "FQDNHostList", ref := "FQDNHost", host := "FQDNHost" }

/-- `TAG_SETS`, in the dict's insertion order (`"ip"` first, then `"fqdn"`). -/
def TAG_SETS : List (String × Tags) := [("ip", ipTags), ("fqdn", fqdnTags)]

/-- `detect_object_type`: returns the first schema key whose group tag occurs
among the proper descendants of the root (`root.find(".//tag") is not None`),
in the `TAG_SETS` order; `none` models the `sys.exit` on unknown schema. -/
def detect_object_type (root : Element) : Option String :=
  TAG_SETS.findSome? (fun p =>
    if (findallDesc p.2.group root).isEmpty then none else some p.1)

/-- `list_groups`: collects the trimmed `Name` child text of every group
element found by `root.findall(".//group")`, keeps the non-empty ones, and
returns `sorted(set(names))` — the deduplicated list in ascending string
order. (The console listing it prints is a side effect with no bearing on
the returned value.) -/
def list_groups (tags : Tags) (root : Element) : List String :=
  let names := (findallDesc tags.group root).filterMap (fun g =>
    let n := nameOf g
    if n = "" then none else some n)
  pySorted names.dedup

/-! ### Selection parsing (`parse_group_selection`) -/

/-- Resolution of one comma-separated token against the catalog, following
the branch structure of `parse_group_selection`: `some names` is the list of
catalog names the token adds to the `requested` set, `none` means the token
is appended to `invalid`. -/
def resolveToken (part : String) (all_groups : List String) : Option (List String) :=
  if part.toList.contains '-' && !(part.toList.head? = some '-') then
    match splitFirstDash part.toList with
    | (s, e) =>
      match pyInt s.asString, pyInt e.asString with
      | some sv, some ev =>
        let start_idx : Int := sv - 1
        let end_idx : Int := ev - 1
        if 0 ≤ start_idx ∧ start_idx ≤ end_idx ∧ end_idx < (all_groups.length : Int) then
          some ((all_groups.drop start_idx.toNat).take (end_idx + 1 - start_idx).toNat)
        else none
      | _, _ => none
  else if pyIsDigit part then
    match pyInt part with
    | some v =>
      let idx : Int := v - 1
      if 0 ≤ idx ∧ idx < (all_groups.length : Int) then
        some [all_groups.getD idx.toNat ""]
      else none
    | none => none
  else
    let matchesCI := all_groups.filter (fun g => containsSub (pyLower part).toList (pyLower g).toList)
    if matchesCI.length = 1 then some matchesCI
    else if part ∈ all_groups then some [part]
    else none

/-- Adds a name to the `requested` set (modelled as a duplicate-free list). -/
def setAdd (l : List String) (a : String) : List String :=
  if a ∈ l then l else l ++ [a]

/-- `parse_group_selection(selection, all_groups)`: blank input yields
`([], [])`; otherwise the input is split on commas, tokens are stripped,
empty tokens dropped, and each token either contributes names to the
requested set or is recorded as invalid (in input order). The Python
`requested` is a `set`; we model it as a duplicate-free list, so only its
membership is meaningful. -/
def parse_group_selection (selection : String) (all_groups : List String) :
    List String × List String :=
  if pyStrip selection = "" then ([], [])
  else
    let parts := ((splitCommas selection.toList).map
      (fun p => pyStrip p.asString)).filter (fun p => p ≠ "")
    parts.foldl (fun acc part =>
      match resolveToken part all_groups with
      | some names => (names.foldl setAdd acc.1, acc.2)
      | none => (acc.1, acc.2 ++ [part])) ([], [])

/-! ### Extraction (`process_tree`) -/

/-- The groups recorded as "to export": every element found by
`root.findall(".//group")` (document order) whose trimmed `Name` is in
`group_names`. -/
def matchedGroups (tags : Tags) (root : Element) (group_names : List String) : List Element :=
  (findallDesc tags.group root).filter (fun g => nameOf g ∈ group_names)

/-- The host-list container of a group: the first direct child found when
trying, in order, the schema's own list tag, `HostList`, `IPHostList`,
`FQDNHostList`. -/
def findHostListElem (tags : Tags) (grp : Element) : Option Element :=
  [tags.list, "HostList", "IPHostList", "FQDNHostList"].findSome?
    (fun lt => grp.findChild lt)

/-- The reference strings contributed by one exported group: the stripped
text of every direct child of its host-list container whose text is present
and non-blank. -/
def grpRefTexts (tags : Tags) (grp : Element) : List String :=
  match findHostListElem tags grp with
  | none => []
  | some lst => lst.children.filterMap (fun r =>
      match r.text with
      | some t => if t ≠ "" && pyStrip t ≠ "" then some (pyStrip t) else none
      | none => none)

/-- The `host_refs` set: union of the reference strings over all exported
groups (modelled as a list; only membership is used). -/
def hostRefs (tags : Tags) (root : Element) (group_names : List String) : List String :=
  (matchedGroups tags root group_names).flatMap (grpRefTexts tags)

/-- The host-emission loop of `process_tree`: walk the candidates from
`root.iter(host)`, skip elements without a `Name` child, and emit each
element whose trimmed name is in `refs` and not yet in `seen`, marking the
name seen. -/
def scanHosts (refs : List String) : List Element → List String → List Element
  | [], _ => []
  | h :: rest, seen =>
    match h.findChild "Name" with
    | none => scanHosts refs rest seen
    | some _ =>
      let name := nameOf h
      if name ∈ refs ∧ name ∉ seen then
        h :: scanHosts refs rest (name :: seen)
      else
        scanHosts refs rest seen

/-- `process_tree(tree, group_names, tags)`: a new root with the source
root's tag and attributes, whose children are the deduplicated referenced
hosts (in `root.iter(host)` order) followed by the exported groups (in
`root.findall(".//group")` order). -/
def process_tree (tags : Tags) (root : Element) (group_names : List String) : Element :=
  let groups_to_export := matchedGroups tags root group_names
  let host_refs := hostRefs tags root group_names
  let hosts := scanHosts host_refs (iterTag tags.host root) []
  Element.mk root.tag root.attrib none (hosts ++ groups_to_export)

/-- Keep-first deduplication by key: emit each candidate whose key has not
been seen yet, marking it seen (the spec-side description of the host
emission: "first occurrence wins"). -/
def keepFirstBy (key : Element → String) : List Element → List String → List Element
  | [], _ => []
  | h :: t, seen =>
    if key h ∈ seen then keepFirstBy key t seen
    else h :: keepFirstBy key t (key h :: seen)

/-- A host candidate is eligible for emission when it has a `Name` child and
its trimmed name is among the collected references. -/
def eligibleHost (refs : List String) (h : Element) : Prop :=
  (h.findChild "Name").isSome ∧ nameOf h ∈ refs

instance (refs : List String) (h : Element) : Decidable (eligibleHost refs h) := by
  unfold eligibleHost
  infer_instance

/-- Concrete document for the extraction witnesses: group ` G1 ` (name trims
to `G1`) referencing `h1` and `h2`, two distinct host elements named `h1`,
one host `h3` that no group references, and an unselected group `G2`. -/
def sampleDoc : Element := .mk "Config" [("ver", "1")] none
  [.mk "IPHostGroup" [] none
    [.mk "Name" [] (some " G1 ") [],
     .mk "IPHostList" [] none [.mk "IPHost" [] (some "h1") [], .mk "IPHost" [] (some " h2 ") []]],
   .mk "IPHost" [] none [.mk "Name" [] (some "h1") [], .mk "IPAddress" [] (some "1.2.3.4") []],
   .mk "IPHost" [] none [.mk "Name" [] (some "h1") [], .mk "IPAddress" [] (some "5.6.7.8") []],
   .mk "IPHost" [] none [.mk "Name" [] (some "h3") []],
   .mk "IPHostGroup" [] none [.mk "Name" [] (some "G2") []]]

/-- First of two distinct group elements sharing the selected name `G`. -/
def dupG1 : Element := .mk "IPHostGroup" [("id", "1")] none [.mk "Name" [] (some "G") []]

/-- Second of two distinct group elements sharing the selected name `G`. -/
def dupG2 : Element := .mk "IPHostGroup" [("id", "2")] none [.mk "Name" [] (some "G") []]

/-- A document with two distinct groups both named `G`. -/
def dupDoc : Element := .mk "Config" [] none [dupG1, dupG2]

/-! ### Top-level exception handling (`__main__`) -/

/-- Outcome of running the body of the script's top-level `try` block.
`sysExit c` is a `SystemExit` raised by `sys.exit` (a `BaseException`, not
caught by `except Exception`); `unexpected m` is any other `Exception`. -/
inductive BodyResult : Type where
  | success : BodyResult
  | sysExit : Nat → BodyResult
  | keyboardInterrupt : BodyResult
  | unexpected : String → BodyResult

/-- Observable events of the two `except` handlers. -/
inductive LogEvent : Type where
  | errorLog : String → LogEvent
  | printed : String → LogEvent
deriving DecidableEq

/-- The script's top-level `try/except`: `SystemExit` passes through;
`KeyboardInterrupt` prints a message and exits 1; any other `Exception` is
logged via `logger.error` and NOT re-raised — control falls off the end of
the script, so the interpreter exits with status 0. -/
def mainHandler : BodyResult → List LogEvent × Nat
  | .success => ([], 0)
  | .sysExit c => ([], c)
  | .keyboardInterrupt => ([.printed "Export durch Benutzer abgebrochen!"], 1)
  | .unexpected m => ([.errorLog ("Unerwarteter Fehler: " ++ m)], 0)

/-- A document whose root element itself is the `IPHostGroup` tag, with no
group descendants. -/
def rootGroupDoc : Element := .mk "IPHostGroup" [] none []

/-- A document with one group `G` whose host list references `H`, while no
host element named `H` exists anywhere. -/
def danglingDoc : Element := .mk "Config" [] none
  [.mk "IPHostGroup" [] none
    [.mk "Name" [] (some "G") [],
     .mk "IPHostList" [] none [.mk "IPHost" [] (some "H") []]]]

/-- Modelled from the spec's words for a range token (refinement side):
split on the first `-`, both halves must parse as integers, interpreted as
inclusive 1-based catalog indices `[start, end]`, valid exactly when
`1 <= start <= end <= len(catalog)`; on success the catalog names at the
1-based positions `start..end`, on any failure the token is invalid. -/
def rangeTokenSpec (part : String) (all_groups : List String) : Option (List String) :=
  match splitFirstDash part.toList with
  | (s, e) =>
    match pyInt s.asString, pyInt e.asString with
    | some sv, some ev =>
      if 1 ≤ sv ∧ sv ≤ ev ∧ ev ≤ (all_groups.length : Int) then
        some ((all_groups.drop (sv.toNat - 1)).take (ev.toNat - sv.toNat + 1))
      else none
    | _, _ => none

/-- Modelled from the spec's words for a pure digit token (refinement
side): a single 1-based catalog index, valid only within catalog bounds,
invalid when out of range. -/
def digitTokenSpec (part : String) (all_groups : List String) : Option (List String) :=
  match pyInt part with
  | some v =>
    if 1 ≤ v ∧ v ≤ (all_groups.length : Int) then
      some [all_groups.getD (v.toNat - 1) ""]
    else none
  | none => none

example : Element.preorder (.mk "a" [] none [.mk "b" [] none [], .mk "c" [] none [.mk "b" [] none []]]) =
    [.mk "a" [] none [.mk "b" [] none [], .mk "c" [] none [.mk "b" [] none []]],
     .mk "b" [] none [], .mk "c" [] none [.mk "b" [] none []], .mk "b" [] none []] := by
  rfl

example : detect_object_type (.mk "Config" [] none [.mk "FQDNHostGroup" [] none []]) = some "fqdn" := by
  rfl

example : detect_object_type (.mk "IPHostGroup" [] none []) = none := by rfl

example : pyStrip " b " = "b" := by rfl

example : pyInt " -1_2 " = some (-12) := by rfl

example : pyInt "12a" = none := by rfl

example : list_groups ipTags (.mk "Config" [] none
    [.mk "IPHostGroup" [] none [.mk "Name" [] (some " b ") []],
     .mk "IPHostGroup" [] none [.mk "Name" [] (some "a") []],
     .mk "IPHostGroup" [] none [.mk "Name" [] (some "a") []],
     .mk "IPHostGroup" [] none [.mk "Name" [] (some "  ") []]]) = ["a", "b"] := by
  rfl

/-! ### Claim C6: schema detection -/

/-- C6 counterexample: `detect_object_type` looks for the group tag with
`root.find(".//tag")`, which only inspects proper descendants — a document
whose root element IS the `IPHostGroup` tag is reported as unknown schema
(fatal), not as `IP`. -/
theorem c6_counterexample :
    rootGroupDoc.tag = "IPHostGroup" ∧
    detect_object_type rootGroupDoc ≠ some "ip" ∧
    detect_object_type rootGroupDoc = none := by
  exact ⟨rfl, by decide, rfl⟩

/-- C6 (amended): for every document, detection returns `IP` exactly when
the `IPHostGroup` tag occurs among the proper descendants of the root (the
root element itself is not considered), otherwise `FQDN` exactly when
`FQDNHostGroup` occurs among the proper descendants; a document with both
yields `IP`; when neither occurs below the root the operation terminates
fatally with the unknown-schema report (modelled by `none`). -/
theorem c6_detect_amended (root : Element) :
    (detect_object_type root = some "ip" ↔
      ∃ e ∈ root.descendants, e.tag = "IPHostGroup") ∧
    (detect_object_type root = some "fqdn" ↔
      (¬ ∃ e ∈ root.descendants, e.tag = "IPHostGroup") ∧
      ∃ e ∈ root.descendants, e.tag = "FQDNHostGroup") ∧
    (detect_object_type root = none ↔
      (¬ ∃ e ∈ root.descendants, e.tag = "IPHostGroup") ∧
      ¬ ∃ e ∈ root.descendants, e.tag = "FQDNHostGroup") := by
  have hmem : ∀ (t : String), (findallDesc t root).isEmpty = true ↔
      ¬ ∃ e ∈ root.descendants, e.tag = t := by
    intro t
    rw [List.isEmpty_iff, List.eq_nil_iff_forall_not_mem]
    simp [findallDesc, List.mem_filter]
  by_cases hip : ∃ e ∈ root.descendants, e.tag = "IPHostGroup" <;>
    by_cases hf : ∃ e ∈ root.descendants, e.tag = "FQDNHostGroup"
  all_goals {
    first
    | (have hipb : (findallDesc "IPHostGroup" root).isEmpty = false := by
        rw [Bool.eq_false_iff]
        intro hcontra
        exact absurd hip ((hmem "IPHostGroup").mp hcontra))
    | (have hipb : (findallDesc "IPHostGroup" root).isEmpty = true :=
        (hmem "IPHostGroup").mpr hip)
    first
    | (have hfb : (findallDesc "FQDNHostGroup" root).isEmpty = false := by
        rw [Bool.eq_false_iff]
        intro hcontra
        exact absurd hf ((hmem "FQDNHostGroup").mp hcontra))
    | (have hfb : (findallDesc "FQDNHostGroup" root).isEmpty = true :=
        (hmem "FQDNHostGroup").mpr hf)
    simp [detect_object_type, TAG_SETS, List.findSome?, ipTags, fqdnTags, hipb, hfb, hip, hf]
  }

/-- C6 witness: on a document with an `FQDNHostGroup` child (and no IP
group), the amended theorem yields `fqdn`. -/
theorem c6_witness :
    detect_object_type (.mk "Config" [] none [.mk "FQDNHostGroup" [] none []]) = some "fqdn" := by
  exact ((c6_detect_amended (.mk "Config" [] none [.mk "FQDNHostGroup" [] none []])).2.1).mpr
    (by constructor <;> decide)

/-! ### Claim C9: unexpected-error handling -/

/-- C9 counterexample: an unexpected exception is caught and logged, but the
handler does not re-raise and does not call `sys.exit`, so the interpreter
falls off the end of the script and the process exits with status 0 — not
with a non-zero status as claimed. -/
theorem c9_counterexample : (mainHandler (.unexpected "boom")).2 = 0 := by
  rfl

/-- C9 (amended): any error not covered by the anticipated fatal conditions
is caught at the top level, logged via the error-level channel, not
re-raised — and the process then exits with status 0. -/
theorem c9_amended (m : String) :
    mainHandler (.unexpected m) = ([.errorLog ("Unerwarteter Fehler: " ++ m)], 0) := by
  rfl

/-! ### Claim C10: no dangling-reference check -/

/-- C10: extraction performs no dangling-reference check — on `danglingDoc`
with selection `{G}` it succeeds, the output contains the exported group
whose reference strings name the host `H`, yet no element of the output
document with the schema's host tag has trimmed `Name` equal to `H` (the
output contains no emitted host at all). -/
theorem c10_dangling_reference :
    (process_tree ipTags danglingDoc ["G"]).children =
      [.mk "IPHostGroup" [] none
        [.mk "Name" [] (some "G") [],
         .mk "IPHostList" [] none [.mk "IPHost" [] (some "H") []]]] ∧
    (∀ g ∈ (process_tree ipTags danglingDoc ["G"]).children,
      g.tag = ipTags.group ∧ grpRefTexts ipTags g = ["H"]) ∧
    (∀ e ∈ (process_tree ipTags danglingDoc ["G"]).preorder,
      e.tag = ipTags.host → nameOf e ≠ "H") ∧
    scanHosts (hostRefs ipTags danglingDoc ["G"]) (iterTag ipTags.host danglingDoc) [] = [] := by
  exact ⟨rfl, by decide, by decide, rfl⟩

/-! ### Helper lemmas on the extraction -/

theorem process_tree_children (tags : Tags) (root : Element) (group_names : List String) :
    (process_tree tags root group_names).children =
      scanHosts (hostRefs tags root group_names) (iterTag tags.host root) []
        ++ matchedGroups tags root group_names := rfl

theorem mem_matchedGroups {tags : Tags} {root : Element} {ns : List String} {g : Element} :
    g ∈ matchedGroups tags root ns ↔
      g ∈ findallDesc tags.group root ∧ nameOf g ∈ ns := by
  simp [matchedGroups, List.mem_filter]

theorem mem_findallDesc_tag {t : String} {root e : Element} (h : e ∈ findallDesc t root) :
    e.tag = t := by
  simp only [findallDesc, List.mem_filter, decide_eq_true_eq] at h
  exact h.2

theorem mem_iterTag_tag {t : String} {root e : Element} (h : e ∈ iterTag t root) :
    e.tag = t := by
  simp only [iterTag, List.mem_filter, decide_eq_true_eq] at h
  exact h.2

theorem scanHosts_mem (refs : List String) :
    ∀ (l : List Element) (seen : List String) (h : Element),
      h ∈ scanHosts refs l seen →
        h ∈ l ∧ nameOf h ∈ refs ∧ (h.findChild "Name").isSome := by
  intro l
  induction l with
  | nil =>
    intro seen h hm
    simp [scanHosts] at hm
  | cons x rest ih =>
    intro seen h hm
    rw [scanHosts] at hm
    cases hx : x.findChild "Name" with
    | none =>
      rw [hx] at hm
      simp only at hm
      obtain ⟨h1, h2, h3⟩ := ih _ _ hm
      exact ⟨List.mem_cons_of_mem _ h1, h2, h3⟩
    | some c =>
      rw [hx] at hm
      simp only at hm
      split at hm
      next hcond =>
        rcases List.mem_cons.mp hm with heq | hrest
        · subst heq
          exact ⟨List.mem_cons_self _ _, hcond.1, by rw [hx]; rfl⟩
        · obtain ⟨h1, h2, h3⟩ := ih _ _ hrest
          exact ⟨List.mem_cons_of_mem _ h1, h2, h3⟩
      next =>
        obtain ⟨h1, h2, h3⟩ := ih _ _ hm
        exact ⟨List.mem_cons_of_mem _ h1, h2, h3⟩

theorem scanHosts_eq_keepFirstBy (refs : List String) :
    ∀ (l : List Element) (seen : List String),
      scanHosts refs l seen =
        keepFirstBy nameOf (l.filter (fun h => eligibleHost refs h)) seen := by
  intro l
  induction l with
  | nil => intro seen; rfl
  | cons x rest ih =>
    intro seen
    rw [scanHosts]
    cases hx : x.findChild "Name" with
    | none =>
      have hfe : ¬ eligibleHost refs x := by
        intro hc
        rw [eligibleHost, hx] at hc
        simp at hc
      rw [List.filter_cons_of_neg (by simpa using hfe)]
      exact ih seen
    | some c =>
      have hsome : (x.findChild "Name").isSome := by rw [hx]; rfl
      show (if nameOf x ∈ refs ∧ nameOf x ∉ seen then
              x :: scanHosts refs rest (nameOf x :: seen)
            else scanHosts refs rest seen) = _
      by_cases hrefs : nameOf x ∈ refs
      · have hel : eligibleHost refs x := ⟨hsome, hrefs⟩
        rw [List.filter_cons_of_pos (by simpa using hel), keepFirstBy]
        by_cases hseen : nameOf x ∈ seen
        · rw [if_neg (by simp [hseen]), if_pos hseen]
          exact ih seen
        · rw [if_pos ⟨hrefs, hseen⟩, if_neg hseen, ih]
      · have hel : ¬ eligibleHost refs x := fun hc => hrefs hc.2
        rw [List.filter_cons_of_neg (by simpa using hel),
          if_neg (by intro hc; exact hrefs hc.1)]
        exact ih seen

theorem keepFirstBy_nodup (key : Element → String) :
    ∀ (l : List Element) (seen : List String),
      ((keepFirstBy key l seen).map key).Nodup ∧
      ∀ n ∈ (keepFirstBy key l seen).map key, n ∉ seen := by
  intro l
  induction l with
  | nil => intro seen; simp [keepFirstBy]
  | cons x t ih =>
    intro seen
    rw [keepFirstBy]
    by_cases hx : key x ∈ seen
    · rw [if_pos hx]
      exact ih seen
    · rw [if_neg hx]
      obtain ⟨ihn, ihs⟩ := ih (key x :: seen)
      refine ⟨?_, ?_⟩
      · simp only [List.map_cons, List.nodup_cons]
        exact ⟨fun hmem => (ihs _ hmem) (List.mem_cons_self _ _), ihn⟩
      · intro n hn
        simp only [List.map_cons, List.mem_cons] at hn
        rcases hn with rfl | hn
        · exact hx
        · exact fun hcontra => (ihs _ hn) (List.mem_cons_of_mem _ hcontra)

theorem keepFirstBy_filter_key (key : Element → String) (n : String) :
    ∀ (l : List Element) (seen : List String),
      (keepFirstBy key l seen).filter (fun h => key h = n) =
        if n ∈ seen then [] else (l.filter (fun h => key h = n)).take 1 := by
  intro l
  induction l with
  | nil =>
    intro seen
    by_cases hn : n ∈ seen <;> simp [keepFirstBy, hn]
  | cons x t ih =>
    intro seen
    rw [keepFirstBy]
    by_cases hx : key x ∈ seen
    · rw [if_pos hx, ih]
      by_cases hn : n ∈ seen
      · rw [if_pos hn, if_pos hn]
      · have hne : ¬ key x = n := fun hh => hn (hh ▸ hx)
        rw [if_neg hn, if_neg hn, List.filter_cons_of_neg (by simpa using hne)]
    · rw [if_neg hx]
      by_cases hxn : key x = n
      · subst hxn
        rw [List.filter_cons_of_pos (by simp), ih, if_pos (List.mem_cons_self _ _),
          if_neg hx, List.filter_cons_of_pos (by simp), List.take_succ_cons, List.take_zero]
      · rw [List.filter_cons_of_neg (by simpa using hxn), ih]
        by_cases hn : n ∈ seen
        · rw [if_pos (List.mem_cons_of_mem _ hn), if_pos hn]
        · have : ¬ n ∈ (key x :: seen) := by
            intro hc
            rcases List.mem_cons.mp hc with hc | hc
            · exact hxn hc.symm
            · exact hn hc
          rw [if_neg this, if_neg hn, List.filter_cons_of_neg (by simpa using hxn)]

/-! ### Claim C1: extraction referential integrity -/

/-- C1: for every document, schema tag set of the script, and selected group
names, every host element placed in the produced document has a trimmed
`Name` that belongs to the union of the host-reference strings collected
from the exported groups (`hostRefs`), and every exported group's trimmed
`Name` is a member of the selected-names set. -/
theorem c1_referential_integrity (tags : Tags) (root : Element) (group_names : List String)
    (htags : tags = ipTags ∨ tags = fqdnTags) :
    (∀ h ∈ (process_tree tags root group_names).children,
        h.tag = tags.host → nameOf h ∈ hostRefs tags root group_names) ∧
    (∀ g ∈ (process_tree tags root group_names).children,
        g.tag = tags.group → nameOf g ∈ group_names) := by
  have hne : tags.group ≠ tags.host := by
    rcases htags with h | h <;> subst h <;> decide
  constructor
  · intro h hmem htag
    rw [process_tree_children] at hmem
    rcases List.mem_append.mp hmem with hs | hg
    · exact (scanHosts_mem _ _ _ _ hs).2.1
    · have hgt : h.tag = tags.group := mem_findallDesc_tag (mem_matchedGroups.mp hg).1
      exact absurd (hgt.symm.trans htag) hne
  · intro g hmem htag
    rw [process_tree_children] at hmem
    rcases List.mem_append.mp hmem with hs | hg
    · have hht : g.tag = tags.host :=
        mem_iterTag_tag (scanHosts_mem _ _ _ _ hs).1
      exact absurd (htag.symm.trans hht) hne
    · exact (mem_matchedGroups.mp hg).2

/-- C1 witness: the theorem applied to the concrete sample document under
the IP schema. -/
theorem c1_witness :
    (∀ h ∈ (process_tree ipTags sampleDoc ["G1"]).children,
        h.tag = ipTags.host → nameOf h ∈ hostRefs ipTags sampleDoc ["G1"]) ∧
    (∀ g ∈ (process_tree ipTags sampleDoc ["G1"]).children,
        g.tag = ipTags.group → nameOf g ∈ ["G1"]) :=
  c1_referential_integrity ipTags sampleDoc ["G1"] (Or.inl rfl)

/-! ### Claim C2: duplicate groups all exported, output order -/

/-- C2: for every document, schema tag set and selection, the new root's
children are exactly the emitted hosts followed by ALL group elements whose
trimmed `Name` is selected, kept in the order of the document scan
(`root.findall(".//group")`), without deduplication by name; concretely, a
document with two distinct group elements both named `G` has both exported,
in scan order, after the hosts. -/
theorem c2_duplicate_groups_and_order (tags : Tags) (root : Element) (group_names : List String) :
    ((process_tree tags root group_names).children =
      scanHosts (hostRefs tags root group_names) (iterTag tags.host root) []
        ++ (findallDesc tags.group root).filter (fun g => nameOf g ∈ group_names)) ∧
    (∀ g ∈ findallDesc tags.group root, nameOf g ∈ group_names →
      g ∈ (process_tree tags root group_names).children) ∧
    ((process_tree ipTags dupDoc ["G"]).children = [dupG1, dupG2] ∧
      dupG1 ≠ dupG2 ∧ nameOf dupG1 = "G" ∧ nameOf dupG2 = "G") := by
  refine ⟨rfl, ?_, by decide, by decide, by decide, by decide⟩
  intro g hg hn
  rw [process_tree_children]
  exact List.mem_append_right _ (mem_matchedGroups.mpr ⟨hg, hn⟩)

/-! ### Claim C3: host deduplication, first occurrence wins -/

theorem process_tree_host_part (tags : Tags) (root : Element) (ns : List String)
    (hne : tags.group ≠ tags.host) :
    (process_tree tags root ns).children.filter (fun h => h.tag = tags.host) =
      scanHosts (hostRefs tags root ns) (iterTag tags.host root) [] := by
  rw [process_tree_children, List.filter_append]
  have h1 : (scanHosts (hostRefs tags root ns) (iterTag tags.host root) []).filter
      (fun h => h.tag = tags.host) =
      scanHosts (hostRefs tags root ns) (iterTag tags.host root) [] := by
    rw [List.filter_eq_self]
    intro h hm
    simp [mem_iterTag_tag (scanHosts_mem _ _ _ _ hm).1]
  have h2 : (matchedGroups tags root ns).filter (fun h => h.tag = tags.host) = [] := by
    rw [List.filter_eq_nil_iff]
    intro g hm
    have := mem_findallDesc_tag (mem_matchedGroups.mp hm).1
    simp [this, hne]
  rw [h1, h2, List.append_nil]

/-- C3: for every document, schema tag set and selection, the host elements
of the produced document are the keep-first-by-name deduplication of the
eligible candidates of the document scan (`root.iter(host)`, restricted to
elements that have a `Name` child and whose trimmed name is referenced), so
their trimmed names are pairwise distinct, hosts lacking a `Name` child are
never emitted, and for every name the emitted hosts carrying it are exactly
the first eligible candidate of the scan (at most one copy). -/
theorem c3_host_dedup_first_wins (tags : Tags) (root : Element) (ns : List String)
    (htags : tags = ipTags ∨ tags = fqdnTags) :
    ((process_tree tags root ns).children.filter (fun h => h.tag = tags.host) =
      keepFirstBy nameOf ((iterTag tags.host root).filter
        (fun h => eligibleHost (hostRefs tags root ns) h)) []) ∧
    ((((process_tree tags root ns).children.filter
        (fun h => h.tag = tags.host)).map nameOf).Nodup) ∧
    (∀ h ∈ (process_tree tags root ns).children, h.tag = tags.host →
      (h.findChild "Name").isSome) ∧
    (∀ n : String,
      ((process_tree tags root ns).children.filter (fun h => h.tag = tags.host)).filter
          (fun h => nameOf h = n) =
        (((iterTag tags.host root).filter
          (fun h => eligibleHost (hostRefs tags root ns) h)).filter
            (fun h => nameOf h = n)).take 1) := by
  have hne : tags.group ≠ tags.host := by
    rcases htags with h | h <;> subst h <;> decide
  have hpart := process_tree_host_part tags root ns hne
  have hkeep := scanHosts_eq_keepFirstBy (hostRefs tags root ns) (iterTag tags.host root) []
  refine ⟨hpart.trans hkeep, ?_, ?_, ?_⟩
  · rw [hpart, hkeep]
    exact (keepFirstBy_nodup nameOf _ []).1
  · intro h hmem htag
    rw [process_tree_children] at hmem
    rcases List.mem_append.mp hmem with hs | hg
    · exact (scanHosts_mem _ _ _ _ hs).2.2
    · have hgt : h.tag = tags.group := mem_findallDesc_tag (mem_matchedGroups.mp hg).1
      exact absurd (hgt.symm.trans htag) hne
  · intro n
    rw [hpart, hkeep, keepFirstBy_filter_key]
    rw [if_neg (List.not_mem_nil n)]

/-- C3 witness: the theorem applied to the concrete sample document (which
contains two distinct host elements named `h1`, both referenced) under the
IP schema. -/
theorem c3_witness :
    ((process_tree ipTags sampleDoc ["G1"]).children.filter (fun h => h.tag = ipTags.host) =
      keepFirstBy nameOf ((iterTag ipTags.host sampleDoc).filter
        (fun h => eligibleHost (hostRefs ipTags sampleDoc ["G1"]) h)) []) ∧
    ((((process_tree ipTags sampleDoc ["G1"]).children.filter
        (fun h => h.tag = ipTags.host)).map nameOf).Nodup) ∧
    (∀ h ∈ (process_tree ipTags sampleDoc ["G1"]).children, h.tag = ipTags.host →
      (h.findChild "Name").isSome) ∧
    (∀ n : String,
      ((process_tree ipTags sampleDoc ["G1"]).children.filter (fun h => h.tag = ipTags.host)).filter
          (fun h => nameOf h = n) =
        (((iterTag ipTags.host sampleDoc).filter
          (fun h => eligibleHost (hostRefs ipTags sampleDoc ["G1"]) h)).filter
            (fun h => nameOf h = n)).take 1) :=
  c3_host_dedup_first_wins ipTags sampleDoc ["G1"] (Or.inl rfl)

/-! ### Order lemmas for the catalog sort -/

theorem charToNat_inj {a b : Char} (h : a.toNat = b.toNat) : a = b := by
  apply Char.ext
  apply UInt32.ext
  exact h

theorem lexLt_irrefl : ∀ l : List Char, lexLt l l = false
  | [] => rfl
  | a :: as => by simp [lexLt, lexLt_irrefl as]

theorem lexLt_eq_of_not : ∀ l1 l2 : List Char,
    lexLt l1 l2 = false → lexLt l2 l1 = false → l1 = l2
  | [], [] => fun _ _ => rfl
  | [], _ :: _ => by intro h _; simp [lexLt] at h
  | _ :: _, [] => by intro _ h; simp [lexLt] at h
  | a :: as, b :: bs => by
    intro h1 h2
    rw [lexLt] at h1 h2
    by_cases hab : a.toNat < b.toNat
    · rw [if_pos hab] at h1
      exact absurd h1 (by simp)
    · by_cases hba : b.toNat < a.toNat
      · rw [if_pos hba] at h2
        exact absurd h2 (by simp)
      · rw [if_neg hab, if_neg hba] at h1
        rw [if_neg hba, if_neg hab] at h2
        have heq : a = b := charToNat_inj (by omega)
        rw [heq, lexLt_eq_of_not as bs h1 h2]

theorem lexLt_trans : ∀ l1 l2 l3 : List Char,
    lexLt l1 l2 = true → lexLt l2 l3 = true → lexLt l1 l3 = true
  | [], [], _ => by intro h _; simp [lexLt] at h
  | _ :: _, [], _ => by intro h _; simp [lexLt] at h
  | _, _ :: _, [] => by intro _ h; simp [lexLt] at h
  | [], _ :: _, _ :: _ => by intro _ _; rfl
  | a :: as, b :: bs, c :: cs => by
    intro h1 h2
    rw [lexLt] at h1 h2 ⊢
    by_cases hab : a.toNat < b.toNat
    · by_cases hbc : b.toNat < c.toNat
      · rw [if_pos (by omega)]
      · rw [if_neg hbc] at h2
        by_cases hcb : c.toNat < b.toNat
        · rw [if_pos hcb] at h2
          exact absurd h2 (by simp)
        · rw [if_pos (by omega)]
    · rw [if_neg hab] at h1
      by_cases hba : b.toNat < a.toNat
      · rw [if_pos hba] at h1
        exact absurd h1 (by simp)
      · rw [if_neg hba] at h1
        by_cases hbc : b.toNat < c.toNat
        · rw [if_pos (by omega)]
        · rw [if_neg hbc] at h2
          by_cases hcb : c.toNat < b.toNat
          · rw [if_pos hcb] at h2
            exact absurd h2 (by simp)
          · rw [if_neg hcb] at h2
            rw [if_neg (by omega), if_neg (by omega)]
            exact lexLt_trans as bs cs h1 h2

theorem pyStrLe_total (a b : String) : pyStrLe a b = true ∨ pyStrLe b a = true := by
  simp only [pyStrLe, pyStrLt, Bool.not_eq_true']
  by_cases h1 : lexLt b.toList a.toList = true
  · by_cases h2 : lexLt a.toList b.toList = true
    · exfalso
      have h3 := lexLt_trans _ _ _ h1 h2
      rw [lexLt_irrefl] at h3
      exact Bool.false_ne_true h3
    · exact Or.inr (Bool.eq_false_iff.mpr h2)
  · exact Or.inl (Bool.eq_false_iff.mpr h1)

theorem pyStrLe_trans {a b c : String} (h1 : pyStrLe a b = true) (h2 : pyStrLe b c = true) :
    pyStrLe a c = true := by
  simp only [pyStrLe, pyStrLt, Bool.not_eq_true'] at h1 h2 ⊢
  by_contra hc
  rw [Bool.not_eq_false] at hc
  by_cases hab : lexLt a.toList b.toList = true
  · have h3 := lexLt_trans _ _ _ hc hab
    rw [h2] at h3
    exact Bool.false_ne_true h3
  · have heq : a.toList = b.toList :=
      lexLt_eq_of_not _ _ (Bool.eq_false_iff.mpr hab) h1
    rw [← heq] at h2
    rw [h2] at hc
    exact Bool.false_ne_true hc

theorem pyStrLt_of_le_ne {x y : String} (hle : pyStrLe x y = true) (hne : x ≠ y) :
    pyStrLt x y = true := by
  rw [pyStrLe, Bool.not_eq_true'] at hle
  rw [pyStrLt] at hle ⊢
  by_contra hc
  rw [Bool.not_eq_true] at hc
  exact hne (String.toList_inj.mp (lexLt_eq_of_not _ _ hc hle))

theorem orderedInsertPy_perm (a : String) : ∀ l : List String, List.Perm (orderedInsertPy a l) (a :: l)
  | [] => List.Perm.refl _
  | b :: l => by
    rw [orderedInsertPy]
    by_cases h : pyStrLe a b = true
    · rw [if_pos h]
    · rw [if_neg h]
      exact ((orderedInsertPy_perm a l).cons b).trans (List.Perm.swap a b l)

theorem pySorted_perm : ∀ l : List String, List.Perm (pySorted l) l
  | [] => List.Perm.refl _
  | a :: l => by
    rw [pySorted]
    exact (orderedInsertPy_perm a (pySorted l)).trans ((pySorted_perm l).cons a)

theorem orderedInsertPy_pairwise (a : String) :
    ∀ l : List String, l.Pairwise (fun x y => pyStrLe x y = true) →
      (orderedInsertPy a l).Pairwise (fun x y => pyStrLe x y = true)
  | [], _ => by simp [orderedInsertPy]
  | b :: l, hp => by
    rw [orderedInsertPy]
    rcases List.pairwise_cons.mp hp with ⟨hb, hl⟩
    by_cases h : pyStrLe a b = true
    · rw [if_pos h]
      refine List.pairwise_cons.mpr ⟨?_, hp⟩
      intro y hy
      rcases List.mem_cons.mp hy with rfl | hy
      · exact h
      · exact pyStrLe_trans h (hb y hy)
    · rw [if_neg h]
      have hba : pyStrLe b a = true := (pyStrLe_total a b).resolve_left h
      refine List.pairwise_cons.mpr ⟨?_, orderedInsertPy_pairwise a l hl⟩
      intro y hy
      have hy2 := (orderedInsertPy_perm a l).mem_iff.mp hy
      rcases List.mem_cons.mp hy2 with rfl | hy3
      · exact hba
      · exact hb y hy3

theorem pySorted_pairwise : ∀ l : List String,
    (pySorted l).Pairwise (fun x y => pyStrLe x y = true)
  | [] => List.Pairwise.nil
  | a :: l => by
    rw [pySorted]
    exact orderedInsertPy_pairwise a (pySorted l) (pySorted_pairwise l)

/-! ### Claim C7: catalog enumeration -/

/-- C7: for every document and schema tag set, `list_groups` returns a list
that is strictly ascending in Python string order (hence duplicate-free),
and whose members are exactly the non-empty trimmed `Name` child texts of
the group elements found at any depth; being a pure function of the
document, enumerating twice on an unmodified document trivially yields the
identical ordered list. -/
theorem c7_catalog_enumeration (tags : Tags) (root : Element) :
    ((list_groups tags root).Pairwise (fun a b => pyStrLt a b = true)) ∧
    (∀ n : String, n ∈ list_groups tags root ↔
      (n ≠ "" ∧ ∃ g ∈ findallDesc tags.group root, nameOf g = n)) := by
  have hrfl : list_groups tags root = pySorted (((findallDesc tags.group root).filterMap
      (fun g => if nameOf g = "" then none else some (nameOf g))).dedup) := rfl
  constructor
  · rw [hrfl]
    have h1 := pySorted_pairwise (((findallDesc tags.group root).filterMap
      (fun g => if nameOf g = "" then none else some (nameOf g))).dedup)
    have h2 : (pySorted (((findallDesc tags.group root).filterMap
        (fun g => if nameOf g = "" then none else some (nameOf g))).dedup)).Nodup :=
      (pySorted_perm _).nodup_iff.mpr (List.nodup_dedup _)
    exact (h1.and h2).imp (fun hab => pyStrLt_of_le_ne hab.1 hab.2)
  · intro n
    rw [hrfl, (pySorted_perm _).mem_iff, List.mem_dedup, List.mem_filterMap]
    constructor
    · rintro ⟨g, hg, hsome⟩
      by_cases hn : nameOf g = ""
      · rw [if_pos hn] at hsome
        cases hsome
      · rw [if_neg hn] at hsome
        obtain rfl := Option.some.inj hsome
        exact ⟨hn, g, hg, rfl⟩
    · rintro ⟨hne, g, hg, rfl⟩
      exact ⟨g, hg, by rw [if_neg hne]⟩

/-! ### Claim C4: numeric token resolution -/

/-- C4: for every catalog, a token containing `-` not at position 0 is
resolved by splitting on the first `-` and parsing both halves as Python
integers, selecting the inclusive 1-based catalog range `[start, end]`
exactly when `1 <= start <= end <= len(catalog)` and reporting the token
invalid on any failure (hence a group name containing a hyphen is invalid
rather than matched by name); a pure-digit token selects the single
1-based catalog entry and is invalid out of bounds. -/
theorem c4_numeric_tokens (part : String) (all_groups : List String) :
    (part.toList.contains '-' = true → part.toList.head? ≠ some '-' →
      resolveToken part all_groups = rangeTokenSpec part all_groups) ∧
    (pyIsDigit part = true →
      resolveToken part all_groups = digitTokenSpec part all_groups) := by
  constructor
  · intro hc hh
    have hcond : (part.toList.contains '-' && !(decide (part.toList.head? = some '-'))) = true := by
      rw [hc, Bool.true_and, Bool.not_eq_true', decide_eq_false_iff_not]
      exact hh
    rw [resolveToken, if_pos hcond, rangeTokenSpec]
    rcases hsp : splitFirstDash part.toList with ⟨s, e⟩
    dsimp only
    rcases hs : pyInt s.asString with _ | sv
    · rfl
    · rcases he : pyInt e.asString with _ | ev
      · rfl
      · dsimp only
        by_cases hok : 1 ≤ sv ∧ sv ≤ ev ∧ ev ≤ (all_groups.length : Int)
        · rw [if_pos (show (0:Int) ≤ sv - 1 ∧ sv - 1 ≤ ev - 1 ∧ ev - 1 < (all_groups.length : Int)
              by omega), if_pos hok]
          have h1 : (sv - 1).toNat = sv.toNat - 1 := by omega
          have h2 : (ev - 1 + 1 - (sv - 1)).toNat = ev.toNat - sv.toNat + 1 := by omega
          rw [h1, h2]
        · rw [if_neg (show ¬ ((0:Int) ≤ sv - 1 ∧ sv - 1 ≤ ev - 1 ∧ ev - 1 < (all_groups.length : Int))
              by omega), if_neg hok]
  · intro hd
    have hall : part.toList.all (fun c => c.isDigit) = true := by
      rw [pyIsDigit] at hd
      exact (Bool.and_eq_true_iff.mp hd).2
    have hcont : part.toList.contains '-' = false := by
      cases hcc : part.toList.contains '-'
      · rfl
      · exfalso
        have hmem : '-' ∈ part.toList := by
          rcases List.contains_iff_exists_mem_beq.mp hcc with ⟨c, hcm, hbeq⟩
          obtain rfl := eq_of_beq hbeq
          exact hcm
        have hdig := List.all_eq_true.mp hall '-' hmem
        simp at hdig
    have hcond : (part.toList.contains '-' && !(decide (part.toList.head? = some '-'))) = false := by
      rw [hcont, Bool.false_and]
    rw [resolveToken, if_neg (by rw [hcond]; exact Bool.false_ne_true), if_pos hd, digitTokenSpec]
    rcases hv : pyInt part with _ | v
    · rfl
    · dsimp only
      by_cases hok : 1 ≤ v ∧ v ≤ (all_groups.length : Int)
      · rw [if_pos (show (0:Int) ≤ v - 1 ∧ v - 1 < (all_groups.length : Int) by omega),
          if_pos hok]
        have h1 : (v - 1).toNat = v.toNat - 1 := by omega
        rw [h1]
      · rw [if_neg (show ¬ ((0:Int) ≤ v - 1 ∧ v - 1 < (all_groups.length : Int)) by omega),
          if_neg hok]

/-- C4 witness: a valid range, an out-of-range digit and a hyphenated name
token, resolved through the theorem on the spec's sample catalog. -/
theorem c4_witness :
    (resolveToken "2-3" ["Alpha", "Beta", "Delta", "Gamma"] =
      rangeTokenSpec "2-3" ["Alpha", "Beta", "Delta", "Gamma"] ∧
     rangeTokenSpec "2-3" ["Alpha", "Beta", "Delta", "Gamma"] = some ["Beta", "Delta"]) ∧
    (resolveToken "5" ["Alpha", "Beta", "Delta", "Gamma"] =
      digitTokenSpec "5" ["Alpha", "Beta", "Delta", "Gamma"] ∧
     digitTokenSpec "5" ["Alpha", "Beta", "Delta", "Gamma"] = none) ∧
    (resolveToken "a-b" ["a-b"] = rangeTokenSpec "a-b" ["a-b"] ∧
     rangeTokenSpec "a-b" ["a-b"] = none) :=
  ⟨⟨(c4_numeric_tokens "2-3" ["Alpha", "Beta", "Delta", "Gamma"]).1 (by decide) (by decide),
    by decide⟩,
   ⟨(c4_numeric_tokens "5" ["Alpha", "Beta", "Delta", "Gamma"]).2 (by decide), by decide⟩,
   ⟨(c4_numeric_tokens "a-b" ["a-b"]).1 (by decide) (by decide), by decide⟩⟩

/-! ### Claim C5: name token resolution -/

/-- C5: for every catalog and every token that is neither a range-form
token nor pure digits, the token is matched case-insensitively as a
substring against every catalog name: exactly one match adds that catalog
name to the requested set; zero or several matches fall back to an exact
case-sensitive membership test which adds the token itself when it is a
catalog member; otherwise the token is reported invalid. -/
theorem c5_name_tokens (part : String) (all_groups : List String)
    (hnr : ¬ (part.toList.contains '-' = true ∧ part.toList.head? ≠ some '-'))
    (hnd : pyIsDigit part = false) :
    ((all_groups.filter (fun g => containsSub (pyLower part).toList (pyLower g).toList)).length = 1 →
      resolveToken part all_groups =
        some (all_groups.filter (fun g => containsSub (pyLower part).toList (pyLower g).toList))) ∧
    ((all_groups.filter (fun g => containsSub (pyLower part).toList (pyLower g).toList)).length ≠ 1 →
      ((part ∈ all_groups → resolveToken part all_groups = some [part]) ∧
       (part ∉ all_groups → resolveToken part all_groups = none))) := by
  have hcond : (part.toList.contains '-' && !(decide (part.toList.head? = some '-'))) = false := by
    cases hcc : part.toList.contains '-'
    · rw [Bool.false_and]
    · have hh : part.toList.head? = some '-' := by
        by_contra hne
        exact hnr ⟨hcc, hne⟩
      rw [Bool.true_and, hh]
      simp
  have heq : resolveToken part all_groups =
      (if (all_groups.filter
            (fun g => containsSub (pyLower part).toList (pyLower g).toList)).length = 1
       then some (all_groups.filter
            (fun g => containsSub (pyLower part).toList (pyLower g).toList))
       else if part ∈ all_groups then some [part] else none) := by
    rw [resolveToken, if_neg (by rw [hcond]; exact Bool.false_ne_true),
      if_neg (by rw [hnd]; exact Bool.false_ne_true)]
  constructor
  · intro h1
    rw [heq, if_pos h1]
  · intro h1
    constructor
    · intro hmem
      rw [heq, if_neg h1, if_pos hmem]
    · intro hmem
      rw [heq, if_neg h1, if_neg hmem]

/-- C5 witness: a unique case-insensitive substring match, an ambiguous
token rescued by exact membership, and an unmatched invalid token, resolved
through the theorem. -/
theorem c5_witness :
    (resolveToken "gamma" ["Alpha", "Beta", "Delta", "Gamma"] =
      some (["Alpha", "Beta", "Delta", "Gamma"].filter
        (fun g => containsSub (pyLower "gamma").toList (pyLower g).toList)) ∧
     ["Alpha", "Beta", "Delta", "Gamma"].filter
        (fun g => containsSub (pyLower "gamma").toList (pyLower g).toList) = ["Gamma"]) ∧
    resolveToken "a" ["Alpha", "a"] = some ["a"] ∧
    resolveToken "zz" ["Alpha", "Beta", "Delta", "Gamma"] = none :=
  ⟨⟨(c5_name_tokens "gamma" ["Alpha", "Beta", "Delta", "Gamma"]
      (by decide) (by decide)).1 (by decide), by decide⟩,
   ((c5_name_tokens "a" ["Alpha", "a"] (by decide) (by decide)).2
      (by decide)).1 (by decide),
   ((c5_name_tokens "zz" ["Alpha", "Beta", "Delta", "Gamma"] (by decide) (by decide)).2
      (by decide)).2 (by decide)⟩
